import Mathlib

/-!
# Verification of the pagination / overflow engine (`src/js/core/PageManager.js`)

Shallow embedding of the DOM-level pagination engine.  A page's content area
is modelled as an ordered list of sibling nodes (`BNode`); node identity is
represented by the node's position in its sibling list, which matches DOM
object identity because all sibling nodes of one content area are distinct
objects.  Heights are natural numbers (browser `scrollHeight`/`clientHeight`
readings are integral device-independent units).
-/

namespace DocProc

/-- A DOM child node of an `.editable-content` area.
`nodeType = 1` is an element node (as tested by `node.nodeType === 1`),
`nodeType = 3` a text node.  `tag` is `tagName`, `text` is `textContent`,
`height` is the node's measured rendered height once placed in a sized
container (the quantity the measurement sandbox reads back). -/
structure BNode where
  nodeType : Nat
  tag : String
  text : String
  height : Nat
deriving DecidableEq, Repr, Inhabited

/-- `node.nextElementSibling`, relative to the sibling list: the least index
`j > i` holding an element node (`nodeType = 1`); `none` when there is no
such sibling. -/
def nextElemIdx (nodes : List BNode) (i : Nat) : Option Nat :=
  (List.range nodes.length).find?
    (fun j => decide (i < j) && decide ((nodes.getD j default).nodeType = 1))

/-- `['H1','H2','H3','H4','H5','H6'].includes(tagName)` from
`shouldKeepWithNext`. -/
def isHeadingTag (t : String) : Bool :=
  t = "H1" || t = "H2" || t = "H3" || t = "H4" || t = "H5" || t = "H6"

/-- `['UL','OL'].includes(tagName)`. -/
def isListTag (t : String) : Bool :=
  t = "UL" || t = "OL"

/-- `PageManager.shouldKeepWithNext(element)` (PageManager.js:59-94).
The argument is the element's position in its sibling list, `none`
standing for a `null` argument.  The nested `if`s mirror the source's
control flow: every failed branch of the heading block falls through to
the paragraph-ending-with-colon check (which is `false` for a heading). -/
def shouldKeepWithNext (nodes : List BNode) (oi : Option Nat) : Bool :=
  match oi with
  | none => false
  | some i =>
    let element := nodes.getD i default
    let tagName := element.tag
    match nextElemIdx nodes i with
    | none => false
    | some ni =>
      let nextElement := nodes.getD ni default
      let pCase : Bool :=
        decide (tagName = "P") &&
          element.text.trim.endsWith ":" &&
          (nextElement.tag = "TABLE" || isListTag nextElement.tag)
      if isHeadingTag tagName then
        if nextElement.tag = "TABLE" then true
        else if isListTag nextElement.tag then true
        else if nextElement.tag = "P" && decide (nextElement.text.length < 100) then
          match nextElemIdx nodes ni with
          | some ai =>
            if (nodes.getD ai default).tag = "TABLE" then true else pCase
          | none => pCase
        else pCase
      else pCase

/-- Loop body of `PageManager.getKeepTogetherGroup` (PageManager.js:101-115):
while `shouldKeepWithNext(current)` holds, advance `current` to its next
element sibling and append it.  The group is represented by the indices of
its members.  The fuel argument bounds the iteration count; member indices
strictly increase and stay below `nodes.length`, so `nodes.length` fuel is
never exhausted before the loop's own exit condition fires. -/
def keepGroupAux (nodes : List BNode) : Nat → Nat → List Nat
  | _, 0 => []
  | current, fuel + 1 =>
    if shouldKeepWithNext nodes (some current) then
      match nextElemIdx nodes current with
      | some nxt => nxt :: keepGroupAux nodes nxt fuel
      | none => []
    else []

/-- `PageManager.getKeepTogetherGroup(startElement)` as the list of indices
of the group's members, beginning with the start element itself. -/
def getKeepTogetherGroup (nodes : List BNode) (i : Nat) : List Nat :=
  i :: keepGroupAux nodes i nodes.length

/-- Backward scan of `PageManager.adjustSplitForKeepTogether`
(PageManager.js:237-265).  `adjustLoop nodes splitIndex k` examines indices
`k-1, k-2, …, 0` in that order; the source's `groupEndIndex` computation
(`max` of `allNodes.indexOf` over the group, starting from `i`) is
`foldl max i` over the group's indices, since sibling nodes are distinct
DOM objects and `indexOf` returns each member's own position. -/
def adjustLoop (nodes : List BNode) (splitIndex : Nat) : Nat → Nat
  | 0 => splitIndex
  | k + 1 =>
    if (nodes.getD k default).nodeType = 1 then
      let group := getKeepTogetherGroup nodes k
      if 1 < group.length then
        let groupEndIndex := group.foldl max k
        if splitIndex ≤ groupEndIndex then k
        else adjustLoop nodes splitIndex k
      else adjustLoop nodes splitIndex k
    else adjustLoop nodes splitIndex k

/-- `PageManager.adjustSplitForKeepTogether(allNodes, splitIndex)`. -/
def adjustSplitForKeepTogether (nodes : List BNode) (splitIndex : Nat) : Nat :=
  adjustLoop nodes splitIndex splitIndex

/-- Measurement loop of `PageManager.handlePageOverflow`
(PageManager.js:158-173).  `cur` is `currentHeight`; appending node `i`
raises the sandbox's `scrollHeight` to `cur + h`, so the source's test
`currentHeight + nodeHeight > availableHeight` is `avail < cur + h`, and
on a non-overflowing step `currentHeight` becomes the new `scrollHeight`
`cur + h`.  Returns `-1` when no prefix overflows. -/
def splitLoop (avail : Nat) : List Nat → Nat → Nat → Int
  | [], _, _ => -1
  | h :: rest, i, cur =>
    if avail < cur + h then (i : Int)
    else splitLoop avail rest (i + 1) (cur + h)

/-- The split-index computation of `handlePageOverflow` over the per-node
measured heights of a content area's child nodes. -/
def computeSplitIndex (heights : List Nat) (avail : Nat) : Int :=
  splitLoop avail heights 0 0

/-- Byte-for-byte prefix test on character lists. -/
def listIsPrefixB : List Char → List Char → Bool
  | [], _ => true
  | _ :: _, [] => false
  | a :: as, b :: bs => a = b && listIsPrefixB as bs

/-- Substring occurrence test on character lists. -/
def listContainsB (pat : List Char) : List Char → Bool
  | [] => listIsPrefixB pat []
  | s@(_ :: rest) => listIsPrefixB pat s || listContainsB pat rest

/-- JavaScript's `s.includes(pat)`. -/
def containsStr (s pat : String) : Bool :=
  listContainsB pat.toList s.toList

/-- The placeholder marker string tested by `moveContentToNextPage`
(PageManager.js:284). -/
def placeholderMarker : String := "Continue your content here"

/-- `nextContent.innerHTML.includes('Continue your content here')`: the
serialized markup of a content area contains the marker exactly when some
child node's text does. -/
def hasPlaceholder (content : List BNode) : Bool :=
  content.any (fun n => containsStr n.text placeholderMarker)

/-- The document-fragment construction of `moveContentToNextPage`
(PageManager.js:277-281): each node of `nodesToMove` is appended to the
fragment in turn (every node in a page's sibling list has a parent, so the
`node.parentNode` guard always passes there). -/
def buildFragment (nodesToMove : List BNode) : List BNode :=
  nodesToMove.foldl (fun frag n => frag ++ [n]) []

/-- `PageManager.moveContentToNextPage(allNodes, splitIndex, nextContent)`
(PageManager.js:273-290).  Returns the source area's remaining children and
the destination area's new children: the tail `allNodes[splitIndex..]` is
detached into a fragment, the destination is wiped whenever its markup
contains the placeholder marker, and the fragment is inserted before the
destination's first child. -/
def moveContentToNextPage (allNodes : List BNode) (splitIndex : Nat)
    (nextContent : List BNode) : List BNode × List BNode :=
  let nodesToMove := allNodes.drop splitIndex
  let fragment := buildFragment nodesToMove
  let cleared := if hasPlaceholder nextContent then [] else nextContent
  (allNodes.take splitIndex, fragment ++ cleared)

/-- A `.document-container` page.  `content` is the child-node list of its
`.editable-content` area, `none` when the page has no such area (the case
skipped by `if (!content) return;` in `checkPageOverflow`);
`clientHeight` is the area's fixed visible capacity. -/
structure PageM where
  content : Option (List BNode)
  clientHeight : Nat
deriving DecidableEq, Repr, Inhabited

/-- The mutable state touched by a pagination pass: the ordered page list,
the `isProcessingOverflow` reentrancy flag, and `pageCount`. -/
structure DocState where
  pages : List PageM
  isProcessingOverflow : Bool
  pageCount : Nat
deriving DecidableEq, Repr, Inhabited

/-- `content.scrollHeight`: the full extent of the area's children. -/
def scrollHeight (content : List BNode) : Nat :=
  (content.map BNode.height).sum

/-- In-place update of the page at a given index (a DOM mutation of that
page; other pages are untouched). -/
def updateAt : List PageM → Nat → (PageM → PageM) → List PageM
  | [], _, _ => []
  | p :: ps, 0, f => f p :: ps
  | p :: ps, n + 1, f => p :: updateAt ps n f

/-- Replace the child list of page `idx`'s content area. -/
def setContent (s : DocState) (idx : Nat) (c : List BNode) : DocState :=
  { s with pages := updateAt s.pages idx (fun p => { p with content := some c }) }

/-- `PageManager.addNewPage()` as it acts during a pass
(PageManager.js:329-355): increments `pageCount` and appends, after the
last page, a fresh page whose content area is empty of block nodes and has
the fixed capacity `newCap` (`PAGE_CONFIG.CONTENT_HEIGHT`).  Monitoring
re-registration, TOC notification and the status message do not alter any
page's content. -/
def addNewPage (newCap : Nat) (s : DocState) : DocState :=
  { s with
    pageCount := s.pageCount + 1
    pages := s.pages ++ [{ content := some [], clientHeight := newCap }] }

/-- The error a pass can raise: `moveContentToNextPage` dereferences a
`null` destination content area (`nextContent.innerHTML`) after the moved
nodes were already detached into the fragment. -/
inductive PassErr
  | nullNextContent
deriving DecidableEq, Repr

/-- `PageManager.splitContentAtIndex(container, content, allNodes, splitIndex)`
(PageManager.js:209-229): adjust the split for keep-together groups, reuse
the next sibling page or create one (a new page is only needed when the
current page is last, and `addNewPage` appends right after it), then move
the tail.  `handleCursorMovement` touches only focus/selection, and the
re-check it schedules runs after this pass returns, so neither mutates the
pass's page contents.  When the destination page has no content area the
source throws after detaching the tail: the moved nodes are lost and the
error propagates. -/
def splitContentAtIndex (newCap : Nat) (s : DocState) (idx : Nat)
    (allNodes : List BNode) (splitIndex : Nat) : DocState × Option PassErr :=
  let adjustedSplitIndex := adjustSplitForKeepTogether allNodes splitIndex
  let s1 := if idx + 1 < s.pages.length then s else addNewPage newCap s
  let nextIdx := idx + 1
  match (s1.pages.getD nextIdx default).content with
  | none =>
    (setContent s1 idx (allNodes.take adjustedSplitIndex), some .nullNextContent)
  | some nextContent =>
    let moved := moveContentToNextPage allNodes adjustedSplitIndex nextContent
    (setContent (setContent s1 idx moved.1) nextIdx moved.2, none)

/-- `PageManager.handlePageOverflow(container, content, availableHeight, _)`
(PageManager.js:153-181): measure the children in the sandbox, then split
when the computed index is non-negative. -/
def handlePageOverflow (newCap : Nat) (s : DocState) (idx : Nat)
    (content : List BNode) (availableHeight : Nat) : DocState × Option PassErr :=
  let splitIndex := computeSplitIndex (content.map BNode.height) availableHeight
  if 0 ≤ splitIndex then
    splitContentAtIndex newCap s idx content splitIndex.toNat
  else (s, none)

/-- One iteration of the `containers.forEach` body of `checkPageOverflow`
(PageManager.js:128-140): look up the page's content area (skip silently
when absent), read `clientHeight` and `scrollHeight`, and hand off to
`handlePageOverflow` when the content overflows the 2-unit tolerance.
The third component records whether overflow handling was invoked for
this page. -/
def processContainer (newCap : Nat) (s : DocState) (idx : Nat) :
    DocState × Option PassErr × Bool :=
  match (s.pages.getD idx default).content with
  | none => (s, none, false)
  | some content =>
    let availableHeight := (s.pages.getD idx default).clientHeight
    let contentHeight := scrollHeight content
    if availableHeight + 2 < contentHeight then
      let r := handlePageOverflow newCap s idx content availableHeight
      (r.1, r.2, true)
    else (s, none, false)

/-- The `forEach` loop over the container list captured at the start of the
pass (`getAllDocumentContainers()` returns a static `querySelectorAll`
list, so pages appended during the pass are not iterated).  An exception
thrown by the body propagates and aborts the remaining iterations. -/
def runIdxs (newCap : Nat) : List Nat → DocState → DocState × Option PassErr
  | [], s => (s, none)
  | idx :: rest, s =>
    let r := processContainer newCap s idx
    match r.2.1 with
    | some e => (r.1, some e)
    | none => runIdxs newCap rest r.1

/-- `PageManager.checkPageOverflow()` (PageManager.js:121-144): no-op while
`isProcessingOverflow` is set; otherwise set the flag, run the pass over
the captured container list, and clear the flag in a `finally` block — on
the normal exit and on the throwing exit alike.  The second component is
the exception propagated to the caller, if any. -/
def checkPageOverflow (newCap : Nat) (s : DocState) : DocState × Option PassErr :=
  if s.isProcessingOverflow then (s, none)
  else
    let s0 := { s with isProcessingOverflow := true }
    let r := runIdxs newCap (List.range s0.pages.length) s0
    ({ r.1 with isProcessingOverflow := false }, r.2)

/-- Concatenation of all pages' block nodes in page order. -/
def pagesConcat : List PageM → List BNode
  | [] => []
  | p :: ps => p.content.getD [] ++ pagesConcat ps

/-- Concatenation of a document state's pages. -/
def concatContent (s : DocState) : List BNode :=
  pagesConcat s.pages

/-- A content area none of whose nodes carries the placeholder marker. -/
def markerFreeB (c : List BNode) : Bool :=
  c.all (fun n => !containsStr n.text placeholderMarker)

/-- Document-state hypothesis for conservation: every page has a content
area and no node's text contains the placeholder marker. -/
def docInvB (s : DocState) : Bool :=
  s.pages.all fun p =>
    match p.content with
    | some c => markerFreeB c
    | none => false

/-! ## Resource tracking for the measurement sandbox -/

/-- Outcome of one overflow-handling attempt, tracking the off-screen
measurement container created by `createMeasurementContainer`
(PageManager.js:188-200). -/
structure MeasureAttempt where
  threw : Bool
  containerReleased : Bool
  splitIndex : Int
deriving DecidableEq, Repr

/-- The measurement loop with a fault oracle: `throwAt = some i` means the
clone/append/measure step for node `i` throws (e.g. cloning a node whose
custom-element constructor raises). -/
def measureLoopF (avail : Nat) (throwAt : Option Nat) :
    List Nat → Nat → Nat → Except Unit Int
  | [], _, _ => .ok (-1)
  | h :: rest, i, cur =>
    if throwAt = some i then .error ()
    else if avail < cur + h then .ok (i : Int)
    else measureLoopF avail throwAt rest (i + 1) (cur + h)

/-- Resource behaviour of `handlePageOverflow` (PageManager.js:153-181):
the container is created before the loop and `document.body.removeChild`
runs only on the straight-line path after the loop — there is no
`try`/`finally` around the measurement, so an exception inside the loop
exits without releasing the container. -/
def handlePageOverflowF (heights : List Nat) (avail : Nat)
    (throwAt : Option Nat) : MeasureAttempt :=
  match measureLoopF avail throwAt heights 0 0 with
  | .ok si => { threw := false, containerReleased := true, splitIndex := si }
  | .error _ => { threw := true, containerReleased := false, splitIndex := -1 }

/-! ## Spec-side definitions

Each definition below renders a sentence of the specification literally,
to be compared with the corresponding definition translated from the
source. -/

/-- Cumulative height of `nodes[0..k-1]`. -/
def prefixSum (heights : List Nat) (k : Nat) : Nat :=
  (heights.take k).sum

/-- The split index as the spec words it: the least `i` such that the
cumulative height of `nodes[0..i]` strictly exceeds `availableHeight`,
and the sentinel `-1` when no prefix exceeds it. -/
def splitIdxSpec (heights : List Nat) (avail : Nat) : Int :=
  match (List.range heights.length).find?
      (fun i => decide (avail < prefixSum heights (i + 1))) with
  | some i => (i : Int)
  | none => -1

/-- Index of the last member of the keep-together group starting at `i`. -/
def groupLastIdx (nodes : List BNode) (i : Nat) : Nat :=
  (getKeepTogetherGroup nodes i).getLastD i

/-- The spec's straddling test: an element node whose KeepTogetherGroup has
a last member with index `≥ splitIndex`. -/
def straddlesB (nodes : List BNode) (splitIndex i : Nat) : Bool :=
  decide ((nodes.getD i default).nodeType = 1) &&
    decide (splitIndex ≤ groupLastIdx nodes i)

/-- The keep-together adjustment as the spec words it: scan indices from
`splitIndex - 1` down to `0`; the first element node whose group straddles
the cut wins and its group's start index (the scanned index itself) is
returned; otherwise `splitIndex` is returned unchanged. -/
def adjustSpecSide (nodes : List BNode) (splitIndex : Nat) : Nat :=
  match (List.range splitIndex).reverse.find? (straddlesB nodes splitIndex) with
  | some i => i
  | none => splitIndex

/-- `shouldKeepWithNext` as the spec words it: false for a null node or a
node with no next element sibling; true exactly for (1) heading before a
table or ordered/unordered list, (2) heading before a short paragraph
(< 100 characters) itself followed by a table, (3) paragraph whose trimmed
text ends with ':' before a table or list. -/
def shouldKeepWithNextSpec (nodes : List BNode) (oi : Option Nat) : Bool :=
  match oi with
  | none => false
  | some i =>
    match nextElemIdx nodes i with
    | none => false
    | some ni =>
      let node := nodes.getD i default
      let next := nodes.getD ni default
      (isHeadingTag node.tag &&
        (next.tag = "TABLE" || next.tag = "UL" || next.tag = "OL")) ||
      (isHeadingTag node.tag && next.tag = "P" &&
        decide (next.text.length < 100) &&
        (match nextElemIdx nodes ni with
         | some ai => decide ((nodes.getD ai default).tag = "TABLE")
         | none => false)) ||
      (decide (node.tag = "P") && node.text.trim.endsWith ":" &&
        (next.tag = "TABLE" || next.tag = "UL" || next.tag = "OL"))

/-- A page whose content fits within its visible capacity plus the 2-unit
tolerance (pages without a content area are skipped by the pass and count
as fitting). -/
def pageFitsB (p : PageM) : Bool :=
  match p.content with
  | some c => decide (scrollHeight c ≤ p.clientHeight + 2)
  | none => true

/-! ## Concrete example nodes and states -/

/-- A paragraph node carrying the placeholder marker text. -/
def phNode : BNode :=
  { nodeType := 1, tag := "P", text := "Continue your content here", height := 1 }

/-- A paragraph of real user content. -/
def realNode : BNode :=
  { nodeType := 1, tag := "P", text := "Important existing content", height := 1 }

/-- A paragraph being moved by an overflow pass. -/
def movedNode : BNode :=
  { nodeType := 1, tag := "P", text := "Overflowing paragraph", height := 1 }

/-- A single node taller than a whole page (capacity 10). -/
def bigNode : BNode :=
  { nodeType := 1, tag := "P", text := "big", height := 20 }

/-- A node that fits comfortably on a page of capacity 10. -/
def smallNode : BNode :=
  { nodeType := 1, tag := "P", text := "small", height := 5 }

/-- One page of capacity 10 holding a single oversized node. -/
def oversizedState : DocState :=
  { pages := [{ content := some [bigNode], clientHeight := 10 }]
    isProcessingOverflow := false
    pageCount := 1 }

/-- Page 1 overflows; page 2 is a stub whose content area holds the
placeholder paragraph. -/
def placeholderDestState : DocState :=
  { pages :=
      [{ content := some [bigNode], clientHeight := 10 },
       { content := some [phNode], clientHeight := 100 }]
    isProcessingOverflow := false
    pageCount := 2 }

/-- A marker-free single-page document whose content fits. -/
def settledState : DocState :=
  { pages := [{ content := some [smallNode], clientHeight := 10 }]
    isProcessingOverflow := false
    pageCount := 1 }

/-- A marker-free single-page document whose content fits (C8 witness). -/
def settledState8 : DocState :=
  { pages := [{ content := some [smallNode], clientHeight := 10 }]
    isProcessingOverflow := false
    pageCount := 1 }

/-- Content of capacity-10 pages used by the C9 witness. -/
def tallContent : List BNode :=
  [{ nodeType := 1, tag := "P", text := "t", height := 20 }]

/-- Content within the 2-unit tolerance used by the C9 witness. -/
def borderContent : List BNode :=
  [{ nodeType := 1, tag := "P", text := "t", height := 12 }]

/-- A page of capacity 10 holding 20 units of content. -/
def tallState : DocState :=
  { pages := [{ content := some tallContent, clientHeight := 10 }]
    isProcessingOverflow := true
    pageCount := 1 }

/-- A page of capacity 10 holding 12 units of content (within tolerance). -/
def borderState : DocState :=
  { pages := [{ content := some borderContent, clientHeight := 10 }]
    isProcessingOverflow := true
    pageCount := 1 }

/-- Sibling list for the C4 witness: paragraph, heading, table, paragraph. -/
def c4Nodes : List BNode :=
  [{ nodeType := 1, tag := "P", text := "before", height := 1 },
   { nodeType := 1, tag := "H2", text := "Title", height := 1 },
   { nodeType := 1, tag := "TABLE", text := "", height := 6 },
   { nodeType := 1, tag := "P", text := "after", height := 1 }]

/-! ## Helper lemmas -/

/-- The fragment-building fold preserves the moved nodes and their order. -/
theorem buildFragment_aux (l acc : List BNode) :
    l.foldl (fun frag n => frag ++ [n]) acc = acc ++ l := by
  induction l generalizing acc with
  | nil => simp
  | cons a t ih => simp [List.foldl_cons, ih]

theorem buildFragment_id (l : List BNode) : buildFragment l = l := by
  simpa using buildFragment_aux l []

/-- A call made while the reentrancy flag is set returns immediately
without touching the state. -/
theorem checkPageOverflow_flag_true {newCap : Nat} {s : DocState}
    (hf : s.isProcessingOverflow = true) :
    checkPageOverflow newCap s = (s, none) := by
  unfold checkPageOverflow
  rw [if_pos hf]

theorem adjustLoop_le (nodes : List BNode) (splitIndex : Nat) :
    ∀ k, k ≤ splitIndex → adjustLoop nodes splitIndex k ≤ splitIndex := by
  intro k
  induction k with
  | zero => intro _; simp [adjustLoop]
  | succ k ih =>
    intro hk
    have hk' : k ≤ splitIndex := Nat.le_of_succ_le hk
    unfold adjustLoop
    dsimp only
    split_ifs with h1 h2 h3
    · omega
    · exact ih hk'
    · exact ih hk'
    · exact ih hk'

/-! ## C10 — adjustment bound -/

/-- C10.  For every node list and every split index within the list's index
range, `adjustSplitForKeepTogether` returns a value in `[0, splitIndex]`:
the keep-together adjustment can only move the cut earlier, never later
(the lower bound `0` is the return type `Nat`). -/
theorem keepTogether_adjustment_bound (nodes : List BNode) (splitIndex : Nat)
    (_hin : splitIndex ≤ nodes.length) :
    adjustSplitForKeepTogether nodes splitIndex ≤ splitIndex :=
  adjustLoop_le nodes splitIndex splitIndex le_rfl

/-- Witness for C10 at a concrete input. -/
theorem keepTogether_adjustment_bound_witness :
    adjustSplitForKeepTogether
      [{ nodeType := 1, tag := "P", text := "a", height := 2 }] 1 ≤ 1 :=
  keepTogether_adjustment_bound _ 1 (by decide)

/-! ## C2 — reentrancy safety -/

/-- C2.  The reentrancy flag is false immediately after a pass-starting
call of `checkPageOverflow` returns — whether the pass finished normally
or propagated an exception (the second component of the result) — and a
call made while the flag is already set performs no work and returns
immediately. -/
theorem reentrancy_flag_safety (newCap : Nat) (s : DocState) :
    (s.isProcessingOverflow = false →
      ((checkPageOverflow newCap s).1).isProcessingOverflow = false) ∧
    (s.isProcessingOverflow = true →
      checkPageOverflow newCap s = (s, none)) := by
  constructor
  · intro h
    simp [checkPageOverflow, h]
  · intro h
    simp [checkPageOverflow, h]

/-- Witness for C2: a flag-clear state runs the pass and ends with the flag
clear; a flag-set state is left untouched. -/
theorem reentrancy_flag_safety_witness :
    ((checkPageOverflow 9
        { pages := [], isProcessingOverflow := false, pageCount := 1 }).1).isProcessingOverflow
        = false ∧
    checkPageOverflow 9
        { pages := [], isProcessingOverflow := true, pageCount := 1 } =
      ({ pages := [], isProcessingOverflow := true, pageCount := 1 }, none) :=
  ⟨(reentrancy_flag_safety 9 _).1 rfl, (reentrancy_flag_safety 9 _).2 rfl⟩

/-! ## C9 — overflow threshold -/

/-- C9.  Overflow handling is invoked for a page exactly when its content's
full extent (`scrollHeight`) strictly exceeds its visible capacity
(`clientHeight`) plus the fixed tolerance of 2 units; a difference of at
most 2 units never triggers handling. -/
theorem overflow_threshold (newCap : Nat) (s : DocState) (idx : Nat)
    (c : List BNode) (hc : (s.pages.getD idx default).content = some c) :
    ((processContainer newCap s idx).2.2 = true ↔
      (s.pages.getD idx default).clientHeight + 2 < scrollHeight c) := by
  unfold processContainer
  rw [hc]
  dsimp only
  split <;> rename_i h <;>
    simp only [List.getD_eq_getElem?_getD] at h ⊢ <;> simp [h]

/-- Witness for C9: a page of capacity 10 holding 20 units of content is
handled; one holding 12 units (within the 2-unit tolerance) is not. -/
theorem overflow_threshold_witness :
    ((processContainer 10 tallState 0).2.2 = true) ∧
    ((processContainer 10 borderState 0).2.2 = false) := by
  constructor
  · exact (overflow_threshold 10 tallState 0 tallContent rfl).mpr (by decide)
  · have h := (overflow_threshold 10 borderState 0 borderContent rfl).not
    simp only [Bool.not_eq_true] at h
    exact h.mpr (by decide)

/-! ## C6 — measurement-sandbox release -/

/-- C6 (evaluation at the failing input).  On the fault-free run the
measurement container is released, but when the clone/append/measure step
for node 0 throws, `handlePageOverflow` exits without reaching
`document.body.removeChild(tempDiv)` — the scratch container leaks, contra
the claimed always-release contract. -/
theorem sandbox_release_on_throw_fails :
    handlePageOverflowF [10] 100 none =
      { threw := false, containerReleased := true, splitIndex := -1 } ∧
    handlePageOverflowF [10] 100 (some 0) =
      { threw := true, containerReleased := false, splitIndex := -1 } := by
  decide

/-! ## C7 — move placement -/

/-- C7 (counterexample).  A destination that is not an empty stub — it holds
the placeholder paragraph followed by real content — is wiped entirely by
`moveContentToNextPage`: afterwards only the moved node is present and the
prior real content does not follow it, contra the claim. -/
theorem move_placement_counterexample :
    (moveContentToNextPage [movedNode] 0 [phNode, realNode]).2 = [movedNode] ∧
    realNode ∉ (moveContentToNextPage [movedNode] 0 [phNode, realNode]).2 := by
  decide

/-- C7 (amended).  `moveContentToNextPage` detaches `nodes[splitIndex..end]`
preserving relative order and prepends them before the destination's
children; the destination's prior content follows the moved nodes unless
its markup contains the placeholder marker, in which case all prior
destination content is cleared first — clearing is keyed on marker
presence, not on the destination being an empty stub. -/
theorem move_placement_amended (allNodes : List BNode) (splitIndex : Nat)
    (nextContent : List BNode) :
    (moveContentToNextPage allNodes splitIndex nextContent).1 =
      allNodes.take splitIndex ∧
    (moveContentToNextPage allNodes splitIndex nextContent).2 =
      allNodes.drop splitIndex ++
        (if hasPlaceholder nextContent then [] else nextContent) := by
  refine ⟨rfl, ?_⟩
  simp only [moveContentToNextPage, buildFragment_id]

/-! ## C8 — idempotence -/

/-- A state's page list determines every `processContainer` outcome, so we
first show the per-page step and the loop are no-ops on a state whose
pages all fit. -/
theorem getD_content_some_lt {s : DocState} {idx : Nat} {c : List BNode}
    (hc : (s.pages.getD idx default).content = some c) :
    idx < s.pages.length := by
  by_contra hge
  push_neg at hge
  rw [List.getD_eq_default _ _ hge] at hc
  exact Option.noConfusion hc

theorem processContainer_fits (newCap : Nat) (s : DocState) (idx : Nat)
    (h : ∀ p ∈ s.pages, pageFitsB p = true) :
    processContainer newCap s idx = (s, none, false) := by
  unfold processContainer
  cases hcc : (s.pages.getD idx default).content with
  | none => rfl
  | some c =>
    have hidx := getD_content_some_lt hcc
    have hmem : s.pages.getD idx default ∈ s.pages := by
      rw [List.getD_eq_getElem _ _ hidx]
      exact List.getElem_mem hidx
    have hfit := h _ hmem
    unfold pageFitsB at hfit
    rw [hcc] at hfit
    simp only [decide_eq_true_eq] at hfit
    dsimp only
    rw [if_neg (by omega)]

theorem runIdxs_fits (newCap : Nat) (l : List Nat) (s : DocState)
    (h : ∀ p ∈ s.pages, pageFitsB p = true) :
    runIdxs newCap l s = (s, none) := by
  induction l with
  | nil => rfl
  | cons idx rest ih =>
    unfold runIdxs
    rw [processContainer_fits newCap s idx h]
    exact ih

theorem checkPageOverflow_fits (newCap : Nat) (s : DocState)
    (hf : s.isProcessingOverflow = false)
    (h : ∀ p ∈ s.pages, pageFitsB p = true) :
    checkPageOverflow newCap s = (s, none) := by
  cases s with
  | mk pages flag pc =>
    simp only at hf
    subst hf
    unfold checkPageOverflow
    rw [if_neg Bool.false_ne_true]
    dsimp only
    rw [runIdxs_fits newCap (List.range pages.length)
      { pages := pages, isProcessingOverflow := true, pageCount := pc } h]

/-- C8 (counterexample).  One page of capacity 10 holding a single node of
height 20: the first `checkPageOverflow` moves the node to a new page 2,
and the second call — with no intervening content change — moves it again
to a new page 3, growing the page count, contra the claim. -/
theorem idempotence_counterexample :
    (checkPageOverflow 10 (checkPageOverflow 10 oversizedState).1).1.pageCount ≠
      (checkPageOverflow 10 oversizedState).1.pageCount := by
  decide

/-- C8 (amended).  When, after the first invocation, every page's content
fits within its capacity plus the 2-unit tolerance, a second invocation of
`checkPageOverflow` with no intervening content change produces no further
mutation: the state — pages, page count, flag — is returned unchanged and
no error is raised. -/
theorem idempotence_amended (newCap : Nat) (s : DocState)
    (h : ∀ p ∈ (checkPageOverflow newCap s).1.pages, pageFitsB p = true) :
    checkPageOverflow newCap ((checkPageOverflow newCap s).1) =
      ((checkPageOverflow newCap s).1, none) := by
  cases hf : (checkPageOverflow newCap s).1.isProcessingOverflow with
  | true => exact checkPageOverflow_flag_true hf
  | false => exact checkPageOverflow_fits newCap _ hf h

/-- Witness for C8 (amended): a settled single-page document; the first
call is a no-op, and so is the second. -/
theorem idempotence_amended_witness :
    checkPageOverflow 10 ((checkPageOverflow 10 settledState8).1) =
      ((checkPageOverflow 10 settledState8).1, none) :=
  idempotence_amended 10 settledState8 (by decide)

/-! ## C3 — split-index computation -/

theorem splitLoop_eq_neg_one (avail : Nat) :
    ∀ (l : List Nat) (i cur : Nat),
      (splitLoop avail l i cur = -1 ↔
        ∀ k < l.length, cur + (l.take (k + 1)).sum ≤ avail) := by
  intro l
  induction l with
  | nil => intro i cur; simp [splitLoop]
  | cons h t ih =>
    intro i cur
    unfold splitLoop
    by_cases hlt : avail < cur + h
    · rw [if_pos hlt]
      constructor
      · intro habs
        exact absurd habs (by omega)
      · intro hall
        have h0 := hall 0 (by simp)
        simp at h0
        omega
    · rw [if_neg hlt]
      rw [ih (i + 1) (cur + h)]
      constructor
      · intro hall k hk
        cases k with
        | zero =>
          simp only [List.take_succ_cons, List.take_zero, List.sum_cons, List.sum_nil]
          omega
        | succ k' =>
          have hh := hall k' (by simpa using hk)
          simp only [List.take_succ_cons, List.sum_cons]
          omega
      · intro hall k hk
        have hh := hall (k + 1) (by simpa using hk)
        simp only [List.take_succ_cons, List.sum_cons] at hh
        omega

theorem splitLoop_eq_coe (avail : Nat) :
    ∀ (l : List Nat) (i cur r : Nat),
      splitLoop avail l i cur = (r : Int) →
      ∃ k, r = i + k ∧ k < l.length ∧ avail < cur + (l.take (k + 1)).sum ∧
        ∀ j < k, cur + (l.take (j + 1)).sum ≤ avail := by
  intro l
  induction l with
  | nil =>
    intro i cur r hr
    simp only [splitLoop] at hr
    omega
  | cons h t ih =>
    intro i cur r hr
    unfold splitLoop at hr
    by_cases hlt : avail < cur + h
    · rw [if_pos hlt] at hr
      refine ⟨0, by omega, by simp, ?_, by omega⟩
      · simp only [List.take_succ_cons, List.take_zero, List.sum_cons, List.sum_nil]
        omega
    · rw [if_neg hlt] at hr
      obtain ⟨k, hk1, hk2, hk3, hk4⟩ := ih (i + 1) (cur + h) r hr
      refine ⟨k + 1, by omega, by simpa using hk2, ?_, ?_⟩
      · simp only [List.take_succ_cons, List.sum_cons]
        omega
      · intro j hj
        cases j with
        | zero =>
          simp only [List.take_succ_cons, List.take_zero, List.sum_cons, List.sum_nil]
          omega
        | succ j' =>
          have hh := hk4 j' (by omega)
          simp only [List.take_succ_cons, List.sum_cons] at hh ⊢
          omega

theorem splitLoop_total (avail : Nat) :
    ∀ (l : List Nat) (i cur : Nat),
      splitLoop avail l i cur = -1 ∨ ∃ r : Nat, splitLoop avail l i cur = (r : Int) := by
  intro l
  induction l with
  | nil => intro i cur; exact Or.inl rfl
  | cons h t ih =>
    intro i cur
    unfold splitLoop
    by_cases hlt : avail < cur + h
    · rw [if_pos hlt]
      exact Or.inr ⟨i, rfl⟩
    · rw [if_neg hlt]
      exact ih (i + 1) (cur + h)

/-- C3.  The measurement loop's split-index computation returns the least
index `i` whose node makes the cumulative height of `nodes[0..i]` strictly
exceed `availableHeight`; it returns the sentinel `-1` exactly when no
prefix exceeds `availableHeight`; and when the first node alone exceeds
`availableHeight` it returns `0`. -/
theorem split_index_computation (heights : List Nat) (avail : Nat) :
    (∀ i : Nat, computeSplitIndex heights avail = (i : Int) →
        i < heights.length ∧ avail < prefixSum heights (i + 1) ∧
        ∀ j < i, prefixSum heights (j + 1) ≤ avail) ∧
    (computeSplitIndex heights avail = -1 ↔
        ∀ i < heights.length, prefixSum heights (i + 1) ≤ avail) ∧
    (computeSplitIndex heights avail = -1 ∨
        ∃ i : Nat, computeSplitIndex heights avail = (i : Int)) ∧
    (∀ h0 rest, heights = h0 :: rest → avail < h0 →
        computeSplitIndex heights avail = 0) := by
  refine ⟨?_, ?_, splitLoop_total avail heights 0 0, ?_⟩
  · intro i hi
    obtain ⟨k, hk1, hk2, hk3, hk4⟩ := splitLoop_eq_coe avail heights 0 0 i hi
    have hki : k = i := by omega
    subst hki
    exact ⟨hk2, by simpa [prefixSum] using hk3,
      fun j hj => by simpa [prefixSum] using hk4 j hj⟩
  · have hh := splitLoop_eq_neg_one avail heights 0 0
    simpa [computeSplitIndex, prefixSum] using hh
  · intro h0 rest heq hlt
    subst heq
    unfold computeSplitIndex splitLoop
    rw [if_pos (by omega)]
    simp

/-- Witness for C3: a first node of height 30 alone exceeds capacity 10,
so the computed split index is 0. -/
theorem split_index_computation_witness :
    computeSplitIndex [30] 10 = 0 :=
  (split_index_computation [30] 10).2.2.2 30 [] rfl (by decide)

/-! ## C5 — shouldKeepWithNext -/

theorem isHeadingTag_cases {t : String} (h : isHeadingTag t = true) :
    ((((t = "H1" ∨ t = "H2") ∨ t = "H3") ∨ t = "H4") ∨ t = "H5") ∨ t = "H6" := by
  simpa [isHeadingTag] using h

theorem isHeadingTag_ne_p {t : String} (h : isHeadingTag t = true) :
    decide (t = "P") = false := by
  rcases isHeadingTag_cases h with ((((rfl | rfl) | rfl) | rfl) | rfl) | rfl <;> rfl

/-- C5.  `shouldKeepWithNext` returns `false` (totally, without raising) on
a null node and on a node without a next element sibling, and agrees on
every input with the spec's case list: heading before table/list, heading
before a short paragraph itself followed by a table, or colon-terminated
paragraph before table/list — every other input yields `false`. -/
theorem keep_with_next_cases :
    (∀ nodes : List BNode, shouldKeepWithNext nodes none = false) ∧
    ∀ (nodes : List BNode) (oi : Option Nat),
      shouldKeepWithNext nodes oi = shouldKeepWithNextSpec nodes oi := by
  refine ⟨fun nodes => rfl, fun nodes oi => ?_⟩
  cases oi with
  | none => rfl
  | some i =>
    unfold shouldKeepWithNext shouldKeepWithNextSpec
    cases hni : nextElemIdx nodes i with
    | none => simp only [hni]
    | some ni =>
      simp only [hni]
      cases hai : nextElemIdx nodes ni with
      | none =>
        simp only [hai]
        generalize (nodes.getD i default) = nd
        generalize (nodes.getD ni default) = nx
        by_cases hH : isHeadingTag nd.tag
        · have hP := isHeadingTag_ne_p hH
          by_cases hA : nx.tag = "TABLE"
          · simp [hH, hA]
          · by_cases hU : nx.tag = "UL"
            · simp [hH, hA, hU, isListTag]
            · by_cases hO : nx.tag = "OL"
              · simp [hH, hA, hU, hO, isListTag]
              · simp [hH, hA, hU, hO, hP, isListTag]
        · simp [hH, isListTag, Bool.or_assoc]
      | some ai =>
        simp only [hai]
        generalize (nodes.getD i default) = nd
        generalize (nodes.getD ni default) = nx
        generalize (nodes.getD ai default) = na
        by_cases hH : isHeadingTag nd.tag
        · have hP := isHeadingTag_ne_p hH
          by_cases hA : nx.tag = "TABLE"
          · simp [hH, hA]
          · by_cases hU : nx.tag = "UL"
            · simp [hH, hA, hU, isListTag]
            · by_cases hO : nx.tag = "OL"
              · simp [hH, hA, hU, hO, isListTag]
              · by_cases hPn : nx.tag = "P"
                · by_cases hlen : nx.text.length < 100
                  · by_cases hT : na.tag = "TABLE"
                    · simp [hH, hA, hU, hO, hPn, hlen, hT, hP, isListTag]
                    · simp [hH, hA, hU, hO, hPn, hlen, hT, hP, isListTag]
                  · simp [hH, hA, hU, hO, hPn, hlen, hP, isListTag]
                · simp [hH, hA, hU, hO, hPn, hP, isListTag]
        · simp [hH, isListTag, Bool.or_assoc]

/-! ## C4 — keep-together adjustment -/

theorem nextElemIdx_lt {nodes : List BNode} {i j : Nat}
    (h : nextElemIdx nodes i = some j) : i < j ∧ j < nodes.length := by
  unfold nextElemIdx at h
  have h1 := List.find?_some h
  have h2 := List.mem_of_find?_eq_some h
  simp only [Bool.and_eq_true, decide_eq_true_eq] at h1
  rw [List.mem_range] at h2
  exact ⟨h1.1, h2⟩

/-- The indices produced by the group loop form a strictly increasing
chain starting at the group's start. -/
theorem keepGroupAux_chain (nodes : List BNode) :
    ∀ (fuel c : Nat), List.Chain (· < ·) c (keepGroupAux nodes c fuel) := by
  intro fuel
  induction fuel with
  | zero => intro c; exact List.Chain.nil
  | succ fuel ih =>
    intro c
    unfold keepGroupAux
    split
    · cases hnx : nextElemIdx nodes c with
      | none => exact List.Chain.nil
      | some nxt => exact List.Chain.cons (nextElemIdx_lt hnx).1 (ih nxt)
    · exact List.Chain.nil

/-- Folding `max` along a strictly increasing chain lands on the last
element. -/
theorem foldl_max_chain :
    ∀ (l : List Nat) (a : Nat), List.Chain (· < ·) a l →
      List.foldl max a l = l.getLastD a := by
  intro l
  induction l with
  | nil => intro a _; rfl
  | cons b t ih =>
    intro a h
    cases h with
    | cons hab ht =>
      rw [List.foldl_cons, List.getLastD_cons, max_eq_right (le_of_lt hab)]
      exact ih b ht

/-- The source's guarded test (`group.length > 1` and `groupEndIndex ≥
splitIndex`) coincides, below the split index, with the spec's straddling
test on the group's last member. -/
theorem adjust_cond_equiv (nodes : List BNode) (splitIndex k : Nat)
    (hk : k < splitIndex)
    (helem : (nodes.getD k default).nodeType = 1) :
    ((1 < (getKeepTogetherGroup nodes k).length ∧
        splitIndex ≤ (getKeepTogetherGroup nodes k).foldl max k)
      ↔ straddlesB nodes splitIndex k = true) := by
  have hchain := keepGroupAux_chain nodes nodes.length k
  unfold straddlesB groupLastIdx getKeepTogetherGroup
  cases haux : keepGroupAux nodes k nodes.length with
  | nil =>
    simp [helem]
    omega
  | cons b t =>
    rw [haux] at hchain
    rw [List.foldl_cons, Nat.max_self, foldl_max_chain _ _ hchain]
    simp [helem]
    intro _
    rw [← List.getD_eq_getElem?_getD]
    exact helem

/-- The backward scan agrees with a `find?` over the descending index list
used by the spec's wording. -/
theorem adjustLoop_eq_spec (nodes : List BNode) (splitIndex : Nat) :
    ∀ k, k ≤ splitIndex →
      adjustLoop nodes splitIndex k =
        (match (List.range k).reverse.find? (straddlesB nodes splitIndex) with
         | some i => i
         | none => splitIndex) := by
  intro k
  induction k with
  | zero => intro _; simp [adjustLoop]
  | succ k ih =>
    intro hk
    have hrev : (List.range (k + 1)).reverse = k :: (List.range k).reverse := by
      rw [List.range_succ, List.reverse_append]
      rfl
    rw [hrev]
    have hk' : k ≤ splitIndex := Nat.le_of_succ_le hk
    by_cases helem : (nodes.getD k default).nodeType = 1
    · have hiff := adjust_cond_equiv nodes splitIndex k (by omega) helem
      by_cases hstr : straddlesB nodes splitIndex k = true
      · obtain ⟨hlen, hend⟩ := hiff.mpr hstr
        unfold adjustLoop
        rw [if_pos helem]
        dsimp only
        rw [if_pos hlen, if_pos hend, List.find?_cons, hstr]
      · have hstrf : straddlesB nodes splitIndex k = false := by
          revert hstr
          cases straddlesB nodes splitIndex k <;> simp
        have hns : ¬(1 < (getKeepTogetherGroup nodes k).length ∧
            splitIndex ≤ (getKeepTogetherGroup nodes k).foldl max k) :=
          fun hcc => hstr (hiff.mp hcc)
        unfold adjustLoop
        rw [if_pos helem]
        dsimp only
        rw [List.find?_cons, hstrf]
        by_cases hlen : 1 < (getKeepTogetherGroup nodes k).length
        · rw [if_pos hlen, if_neg (fun hend => hns ⟨hlen, hend⟩)]
          exact ih hk'
        · rw [if_neg hlen]
          exact ih hk'
    · have hstrf : straddlesB nodes splitIndex k = false := by
        unfold straddlesB
        rw [decide_eq_false helem, Bool.false_and]
      unfold adjustLoop
      rw [if_neg helem, List.find?_cons, hstrf]
      exact ih hk'

/-- C4.  For every node list and every split index within the list's index
range, `adjustSplitForKeepTogether` scans backward from `splitIndex - 1`;
the first element node whose KeepTogetherGroup's last member has index
`≥ splitIndex` wins, and the group's start index is returned; when no
straddling group exists, `splitIndex` is returned unchanged. -/
theorem keepTogether_adjustment (nodes : List BNode) (splitIndex : Nat)
    (_hin : splitIndex ≤ nodes.length) :
    adjustSplitForKeepTogether nodes splitIndex =
      adjustSpecSide nodes splitIndex := by
  unfold adjustSplitForKeepTogether adjustSpecSide
  exact adjustLoop_eq_spec nodes splitIndex splitIndex le_rfl

/-- Witness for C4: a heading-and-table group straddling the cut moves the
split index back to the heading. -/
theorem keepTogether_adjustment_witness :
    adjustSplitForKeepTogether c4Nodes 2 = adjustSpecSide c4Nodes 2 :=
  keepTogether_adjustment c4Nodes 2 (by decide)

/-! ## C1 — conservation -/

theorem moveContent_eq (allNodes : List BNode) (splitIndex : Nat)
    (nextContent : List BNode) :
    moveContentToNextPage allNodes splitIndex nextContent =
      (allNodes.take splitIndex,
       allNodes.drop splitIndex ++
         (if hasPlaceholder nextContent then [] else nextContent)) := by
  unfold moveContentToNextPage
  dsimp only
  rw [buildFragment_id]

theorem updateAt_length (ps : List PageM) (idx : Nat) (f : PageM → PageM) :
    (updateAt ps idx f).length = ps.length := by
  induction ps generalizing idx with
  | nil => rfl
  | cons p t ih =>
    cases idx with
    | zero => rfl
    | succ n => simp [updateAt, ih]

theorem mem_updateAt {ps : List PageM} {idx : Nat} {f : PageM → PageM}
    {a : PageM} (h : a ∈ updateAt ps idx f) :
    a ∈ ps ∨ ∃ b, b ∈ ps ∧ a = f b := by
  induction ps generalizing idx with
  | nil => simp [updateAt] at h
  | cons p t ih =>
    cases idx with
    | zero =>
      rw [updateAt] at h
      rcases List.mem_cons.mp h with rfl | hmem
      · exact Or.inr ⟨p, List.mem_cons_self p t, rfl⟩
      · exact Or.inl (List.mem_cons_of_mem _ hmem)
    | succ n =>
      rw [updateAt] at h
      rcases List.mem_cons.mp h with rfl | hmem
      · exact Or.inl (List.mem_cons_self _ _)
      · rcases ih hmem with h1 | ⟨b, hb, rfl⟩
        · exact Or.inl (List.mem_cons_of_mem _ h1)
        · exact Or.inr ⟨b, List.mem_cons_of_mem _ hb, rfl⟩

theorem pagesConcat_append (ps qs : List PageM) :
    pagesConcat (ps ++ qs) = pagesConcat ps ++ pagesConcat qs := by
  induction ps with
  | nil => rfl
  | cons p t ih => simp [pagesConcat, ih]

theorem getD_snoc_length (l : List PageM) (a d : PageM) :
    (l ++ [a]).getD l.length d = a := by
  induction l with
  | nil => rfl
  | cons b t ih =>
    simp only [List.cons_append, List.length_cons, List.getD_cons_succ]
    exact ih

/-- Moving a decomposition `x ++ y` of page `idx`'s content so that `x`
stays and `y` is prepended to page `idx + 1` preserves the concatenation
of all pages. -/
theorem concat_move :
    ∀ (idx : Nat) (ps : List PageM) (c nc x y : List BNode),
      (ps.getD idx default).content = some c →
      (ps.getD (idx + 1) default).content = some nc →
      idx + 1 < ps.length →
      x ++ y = c →
      pagesConcat
        (updateAt (updateAt ps idx (fun p => { p with content := some x }))
          (idx + 1) (fun p => { p with content := some (y ++ nc) })) =
        pagesConcat ps := by
  intro idx
  induction idx with
  | zero =>
    intro ps c nc x y hc hn hlen hxy
    cases ps with
    | nil => simp at hlen
    | cons p t =>
      cases t with
      | nil => simp at hlen
      | cons q rest =>
        simp only [List.getD_cons_zero, List.getD_cons_succ] at hc hn
        simp only [updateAt, pagesConcat]
        rw [hc, hn]
        rw [← hxy]
        simp [List.append_assoc]
  | succ n ih =>
    intro ps c nc x y hc hn hlen hxy
    cases ps with
    | nil => simp at hlen
    | cons p t =>
      simp only [List.getD_cons_succ] at hc hn
      simp only [updateAt, pagesConcat]
      rw [ih t c nc x y hc hn (by simpa using hlen) hxy]

theorem markerFreeB_sub {c d : List BNode} (hsub : ∀ a ∈ c, a ∈ d)
    (h : markerFreeB d = true) : markerFreeB c = true := by
  simp only [markerFreeB, List.all_eq_true] at h ⊢
  exact fun a ha => h a (hsub a ha)

theorem markerFreeB_append {x y : List BNode} (hx : markerFreeB x = true)
    (hy : markerFreeB y = true) : markerFreeB (x ++ y) = true := by
  simp only [markerFreeB, List.all_eq_true] at hx hy ⊢
  intro a ha
  rcases List.mem_append.mp ha with h1 | h1
  · exact hx a h1
  · exact hy a h1

theorem hasPlaceholder_false {c : List BNode} (h : markerFreeB c = true) :
    hasPlaceholder c = false := by
  simp only [markerFreeB, List.all_eq_true] at h
  cases hval : hasPlaceholder c with
  | false => rfl
  | true =>
    exfalso
    simp only [hasPlaceholder, List.any_eq_true] at hval
    obtain ⟨n, hn, hcontains⟩ := hval
    have hb := h n hn
    rw [hcontains] at hb
    simp at hb

theorem docInvB_getD {s : DocState} (h : docInvB s = true) {idx : Nat}
    (hidx : idx < s.pages.length) :
    ∃ c, (s.pages.getD idx default).content = some c ∧ markerFreeB c = true := by
  have hmem : s.pages.getD idx default ∈ s.pages := by
    rw [List.getD_eq_getElem _ _ hidx]
    exact List.getElem_mem hidx
  have hall := (List.all_eq_true.mp h) _ hmem
  cases hcc : (s.pages.getD idx default).content with
  | none => rw [hcc] at hall; simp at hall
  | some c =>
    rw [hcc] at hall
    exact ⟨c, rfl, hall⟩

theorem docInvB_setContent {s : DocState} {idx : Nat} {c : List BNode}
    (h : docInvB s = true) (hc : markerFreeB c = true) :
    docInvB (setContent s idx c) = true := by
  unfold docInvB setContent at *
  dsimp only at *
  rw [List.all_eq_true] at h ⊢
  intro p hp
  rcases mem_updateAt hp with h1 | ⟨b, hb, rfl⟩
  · exact h p h1
  · simpa using hc

theorem docInvB_addNewPage {s : DocState} (newCap : Nat)
    (h : docInvB s = true) : docInvB (addNewPage newCap s) = true := by
  unfold docInvB addNewPage at *
  dsimp only
  rw [List.all_append, h, Bool.true_and]
  rfl

theorem pagesConcat_addNewPage (newCap : Nat) (s : DocState) :
    pagesConcat (addNewPage newCap s).pages = pagesConcat s.pages := by
  unfold addNewPage
  dsimp only
  rw [pagesConcat_append]
  simp [pagesConcat]

/-- One `forEach` iteration of a pass on a marker-free document raises no
error, preserves the invariant, and preserves the concatenation of all
pages' nodes. -/
theorem processContainer_preserves (newCap : Nat) (s : DocState) (idx : Nat)
    (h : docInvB s = true) :
    (processContainer newCap s idx).2.1 = none ∧
    docInvB (processContainer newCap s idx).1 = true ∧
    pagesConcat (processContainer newCap s idx).1.pages = pagesConcat s.pages := by
  unfold processContainer
  cases hcc : (s.pages.getD idx default).content with
  | none => exact ⟨rfl, h, rfl⟩
  | some content =>
    dsimp only
    by_cases hov : (s.pages.getD idx default).clientHeight + 2 <
        scrollHeight content
    case neg => rw [if_neg hov]; exact ⟨rfl, h, rfl⟩
    case pos =>
    rw [if_pos hov]
    unfold handlePageOverflow
    by_cases hsi : (0 : Int) ≤ computeSplitIndex (content.map BNode.height)
        ((s.pages.getD idx default).clientHeight)
    case neg => rw [if_neg hsi]; exact ⟨rfl, h, rfl⟩
    case pos =>
    rw [if_pos hsi]
    set A := adjustSplitForKeepTogether content
      (computeSplitIndex (content.map BNode.height)
        ((s.pages.getD idx default).clientHeight)).toNat with hA
    have hidx : idx < s.pages.length := getD_content_some_lt hcc
    obtain ⟨c0, hc0, hmc⟩ := docInvB_getD h hidx
    rw [hcc] at hc0
    have hmcontent : markerFreeB content = true := by
      cases hc0
      exact hmc
    unfold splitContentAtIndex
    dsimp only
    by_cases hnext : idx + 1 < s.pages.length
    · rw [if_pos hnext]
      obtain ⟨nc, hnc, hmnc⟩ := docInvB_getD h hnext
      rw [hnc]
      dsimp only
      rw [moveContent_eq, hasPlaceholder_false hmnc]
      rw [if_neg Bool.false_ne_true]
      refine ⟨rfl, ?_, ?_⟩
      · exact docInvB_setContent
          (docInvB_setContent h
            (markerFreeB_sub (fun a ha => List.take_subset _ _ ha) hmcontent))
          (markerFreeB_append
            (markerFreeB_sub (fun a ha => List.drop_subset _ _ ha) hmcontent)
            hmnc)
      · exact concat_move idx s.pages content nc (content.take A)
          (content.drop A) hcc hnc hnext (List.take_append_drop A content)
    · rw [if_neg hnext]
      have hlen1 : idx + 1 = s.pages.length := by omega
      have hnp : ((addNewPage newCap s).pages.getD (idx + 1) default).content =
          some [] := by
        unfold addNewPage
        dsimp only
        rw [hlen1, getD_snoc_length]
      rw [hnp]
      dsimp only
      rw [moveContent_eq, ite_self, List.append_nil]
      refine ⟨rfl, ?_, ?_⟩
      · exact docInvB_setContent
          (docInvB_setContent (docInvB_addNewPage newCap h)
            (markerFreeB_sub (fun a ha => List.take_subset _ _ ha) hmcontent))
          (markerFreeB_sub (fun a ha => List.drop_subset _ _ ha) hmcontent)
      · have hc' : (((addNewPage newCap s).pages).getD idx default).content =
            some content := by
          unfold addNewPage
          dsimp only
          rw [List.getD_append _ _ _ _ hidx]
          exact hcc
        have hlen' : idx + 1 < (addNewPage newCap s).pages.length := by
          unfold addNewPage
          dsimp only
          simp only [List.length_append, List.length_cons, List.length_nil]
          omega
        have hmove := concat_move idx (addNewPage newCap s).pages content []
          (content.take A) (content.drop A) hc' hnp hlen'
          (List.take_append_drop A content)
        rw [List.append_nil] at hmove
        calc pagesConcat (updateAt (updateAt (addNewPage newCap s).pages idx _)
              (idx + 1) _)
            = pagesConcat (addNewPage newCap s).pages := hmove
          _ = pagesConcat s.pages := pagesConcat_addNewPage newCap s

/-- The pass loop on a marker-free document raises no error, preserves the
invariant, and preserves the concatenation. -/
theorem runIdxs_preserves (newCap : Nat) (l : List Nat) (s : DocState)
    (h : docInvB s = true) :
    (runIdxs newCap l s).2 = none ∧
    docInvB (runIdxs newCap l s).1 = true ∧
    pagesConcat (runIdxs newCap l s).1.pages = pagesConcat s.pages := by
  induction l generalizing s with
  | nil => exact ⟨rfl, h, rfl⟩
  | cons idx rest ih =>
    obtain ⟨he, hi, hc⟩ := processContainer_preserves newCap s idx h
    unfold runIdxs
    dsimp only
    rw [he]
    obtain ⟨he', hi', hc'⟩ := ih (processContainer newCap s idx).1 hi
    exact ⟨he', hi', hc'.trans hc⟩

/-- C1 (counterexample).  Page 1 overflows into a page 2 whose content
area holds the placeholder paragraph: the pass wipes page 2's children
before prepending, so the placeholder block node is dropped and the
concatenation of all pages no longer equals the pre-pagination sequence. -/
theorem conservation_counterexample :
    concatContent (checkPageOverflow 10 placeholderDestState).1 ≠
      concatContent placeholderDestState := by
  decide

/-- C1 (amended).  For every document state in which every page has a
content area and no node's text contains the placeholder marker
`'Continue your content here'`, a completed `checkPageOverflow` pass
preserves the concatenation of all pages' block nodes in page order
exactly — no node duplicated, dropped, or reordered — and the pass indeed
completes without error. -/
theorem conservation_amended (newCap : Nat) (s : DocState)
    (h : docInvB s = true) :
    concatContent (checkPageOverflow newCap s).1 = concatContent s ∧
    (checkPageOverflow newCap s).2 = none := by
  by_cases hf : s.isProcessingOverflow = true
  · rw [checkPageOverflow_flag_true hf]
    exact ⟨rfl, rfl⟩
  · unfold checkPageOverflow
    rw [if_neg hf]
    dsimp only
    have h0 : docInvB { s with isProcessingOverflow := true } = true := h
    obtain ⟨he, hi, hc⟩ := runIdxs_preserves newCap
      (List.range s.pages.length) { s with isProcessingOverflow := true } h0
    exact ⟨hc, he⟩

/-- Witness for C1 (amended) at a concrete marker-free document. -/
theorem conservation_amended_witness :
    concatContent (checkPageOverflow 10 settledState).1 =
      concatContent settledState ∧
    (checkPageOverflow 10 settledState).2 = none :=
  conservation_amended 10 settledState (by decide)

end DocProc
